import Mathlib

/-!
# Verification of the poem-openapi schema registry and operation engine

The crate root (`src/poem-openapi/src/lib.rs`) declares the modules
`registry`, `validation`, `base`, `openapi` and `path_util` and re-exports
`ApiExtractor`, `ApiResponse`, `OpenApi`, `ParameterStyle` and `Validator`
from them, but those module files are not part of the available sources.
Every definition below is therefore modelled from the specification of the
corresponding component, as its doc comment records, and the claimed
properties of the components are proved against these models.
-/

set_option autoImplicit false

/-- Equality of `Except` results is decidable when it is on both sides. -/
instance {ε α : Type _} [DecidableEq ε] [DecidableEq α] : DecidableEq (Except ε α)
  | .error a, .error b =>
    if h : a = b then .isTrue (congrArg Except.error h)
    else .isFalse (fun hc => h (Except.error.inj hc))
  | .error _, .ok _ => .isFalse Except.noConfusion
  | .ok _, .error _ => .isFalse Except.noConfusion
  | .ok a, .ok b =>
    if h : a = b then .isTrue (congrArg Except.ok h)
    else .isFalse (fun hc => h (Except.ok.inj hc))

namespace PoemOpenapi

/-! ## Schema data model (spec section 3, modelling the missing `registry.rs`) -/

/-- Modelled from the spec: `registry.rs` is missing. A `SchemaRef` is
"either an inline schema or a named reference. Inline for
anonymous/primitive shapes; reference for named, reusable shapes."
The inline shapes are the container wrappings of section 4.1: nullable
wrapping for optional values, array schemas for sequences, and
additional-properties objects for map-like types; named object and
enumerated shapes are always referenced by name, never inlined. -/
inductive PropSchema where
  | prim (ty : String)
  | reference (name : String)
  | nullable (inner : PropSchema)
  | array (item : PropSchema)
  | mapObject (additional : PropSchema)
deriving DecidableEq, Repr

/-- Modelled from the spec: `registry.rs` is missing. A `SchemaObject`
stored in the Registry under a name: a kind tag plus, for objects, an
ordered mapping from property name to (SchemaRef, required flag), or a
closed string-literal enumeration for enumerated types. -/
inductive MetaSchema where
  | object (properties : List (String × PropSchema × Bool)) (additional : Option PropSchema)
  | enumString (values : List String)
deriving DecidableEq, Repr

/-- Modelled from the spec: `registry.rs` is missing. The build-time errors
of the registry component (section 7): `NameConflict` when a name is
re-registered with structurally different content; the other two record a
dangling named descriptor and exhaustion of the recursion-depth budget. -/
inductive RegistryError where
  | nameConflict (name : String)
  | missingDescriptor (name : String)
  | depthExhausted
deriving DecidableEq, Repr

/-- Modelled from the spec: `registry.rs` is missing. The Registry is a
"mapping from name to SchemaObject, with a parallel set of in-progress
names used to break cycles" (section 3). -/
structure Registry where
  schemas : List (String × MetaSchema)
  inProgress : List String
deriving DecidableEq, Repr

/-- The empty registry at the start of the build phase. -/
def Registry.empty : Registry :=
  { schemas := [], inProgress := [] }

/-- Modelled from the spec: `lookup(name) -> schema option` (section 4.2). -/
def Registry.lookup (reg : Registry) (name : String) : Option MetaSchema :=
  List.lookup name reg.schemas

/-- Modelled from the spec: `insert(name, schema)` "succeeds silently if no
entry exists or an identical entry exists; fails with `NameConflict` if a
differing entry exists" (section 4.2). -/
def Registry.insert (reg : Registry) (name : String) (schema : MetaSchema) :
    Except RegistryError Registry :=
  match reg.lookup name with
  | none => .ok { reg with schemas := reg.schemas ++ [(name, schema)] }
  | some existing =>
    if existing = schema then .ok reg else .error (.nameConflict name)

/-- Modelled from the spec: inserting the reservation marker for a name
"*before* descending into its fields" (section 4.1). -/
def Registry.reserve (reg : Registry) (name : String) : Registry :=
  { reg with inProgress := name :: reg.inProgress }

/-- Modelled from the spec: "the reservation is replaced by the completed
definition once the initial descent finishes" (section 4.1) — the name
leaves the in-progress set. -/
def Registry.finish (reg : Registry) (name : String) : Registry :=
  { reg with inProgress := reg.inProgress.erase name }

/-! ## Type descriptors and the TypeSchema engine (spec section 4.1) -/

/-- Modelled from the spec: `registry.rs` is missing. A type descriptor as
consumed by `register`: anonymous primitives, the container wrappings of
section 4.1 (optional, sequence, map-like), and named reusable components
referred to by name, whose bodies live in a `DescriptorEnv`. -/
inductive TypeDescriptor where
  | prim (ty : String)
  | optional (inner : TypeDescriptor)
  | sequence (item : TypeDescriptor)
  | mapLike (value : TypeDescriptor)
  | named (name : String)
deriving DecidableEq, Repr

/-- Modelled from the spec: the body of a named type descriptor — an object
with an ordered field list (name, descriptor, required flag), or an
enumerated type in its closed string-literal representation (section 4.1). -/
inductive NamedBody where
  | objectBody (fields : List (String × TypeDescriptor × Bool))
  | enumBody (values : List String)
deriving DecidableEq, Repr

/-- The environment of named type descriptors supplied by the host
language's code generation (an external collaborator per section 6). -/
def DescriptorEnv : Type :=
  List (String × NamedBody)

instance : DecidableEq DescriptorEnv := by
  unfold DescriptorEnv
  infer_instance

/-- The schema reference produced for a descriptor. This is a pure function
of the descriptor alone: named descriptors always yield a reference, the
containers wrap the inner reference (section 4.1). -/
def schemaRefOf : TypeDescriptor → PropSchema
  | .prim ty => .prim ty
  | .optional t => .nullable (schemaRefOf t)
  | .sequence t => .array (schemaRefOf t)
  | .mapLike t => .mapObject (schemaRefOf t)
  | .named n => .reference n

/-- The full definition a named body registers under its name. -/
def definitionOf : NamedBody → MetaSchema
  | .objectBody fields => .object (fields.map fun p => (p.1, schemaRefOf p.2.1, p.2.2)) none
  | .enumBody vs => .enumString vs

/-- Modelled from the spec: the structural part of
`register(type_descriptor) -> SchemaRef` (section 4.1), parameterized by
the procedure `descend` that builds and inserts the definition of a named
component. "If the descriptor is anonymous/primitive, an inline schema is
produced with no registry entry. Container wrapping rules: optional values
wrap the inner schema as nullable; sequence types become array schemas over
the registered item schema; map-like types become object schemas with an
additional-properties schema." For a named descriptor, "if recursion
reaches the same name again" — the name carries a reservation marker in the
in-progress set — "the reference is returned immediately without
re-descending"; otherwise the engine descends and returns the reference. -/
def registerWith (descend : Registry → String → Except RegistryError (Registry × PropSchema))
    (reg : Registry) : TypeDescriptor → Except RegistryError (Registry × PropSchema)
  | .prim ty => .ok (reg, .prim ty)
  | .optional t =>
    match registerWith descend reg t with
    | .ok (reg', s) => .ok (reg', .nullable s)
    | .error e => .error e
  | .sequence t =>
    match registerWith descend reg t with
    | .ok (reg', s) => .ok (reg', .array s)
    | .error e => .error e
  | .mapLike t =>
    match registerWith descend reg t with
    | .ok (reg', s) => .ok (reg', .mapObject s)
    | .error e => .error e
  | .named n =>
    if n ∈ reg.inProgress then .ok (reg, .reference n)
    else descend reg n

/-- Registers each field of a named object body in declared order,
threading the registry through the sequence, and collects the property
list of the completed definition. -/
def registerFieldsWith
    (descend : Registry → String → Except RegistryError (Registry × PropSchema))
    (reg : Registry) : List (String × TypeDescriptor × Bool) →
      Except RegistryError (Registry × List (String × PropSchema × Bool))
  | [] => .ok (reg, [])
  | (f, d, req) :: rest =>
    match registerWith descend reg d with
    | .ok (reg', s) =>
      match registerFieldsWith descend reg' rest with
      | .ok (reg'', props) => .ok (reg'', (f, s, req) :: props)
      | .error e => .error e
    | .error e => .error e

/-- Modelled from the spec: the descent into a named component's body
(section 4.1), with an explicit recursion-depth budget `fuel` charged once
per descent. "Recursive descriptors are handled by inserting a reservation
marker for the name *before* descending into its fields ... and the
reservation is replaced by the completed definition once the initial
descent finishes"; the completed definition goes through `Registry.insert`,
so "re-registering the same name with structurally identical content is a
no-op (idempotent), but re-registering the same name with different content
is a build-time `NameConflict` error". -/
def descendNamed (env : DescriptorEnv) :
    Nat → Registry → String → Except RegistryError (Registry × PropSchema)
  | 0, _, _ => .error .depthExhausted
  | fuel + 1, reg, n =>
    match List.lookup n env with
    | none => .error (.missingDescriptor n)
    | some (.objectBody fields) =>
      match registerFieldsWith (descendNamed env fuel) (reg.reserve n) fields with
      | .ok (reg', props) =>
        match ((reg'.finish n).insert n (.object props none)) with
        | .ok reg'' => .ok (reg'', .reference n)
        | .error e => .error e
      | .error e => .error e
    | some (.enumBody vs) =>
      match reg.insert n (.enumString vs) with
      | .ok reg' => .ok (reg', .reference n)
      | .error e => .error e

/-- Modelled from the spec: `register(type_descriptor) -> SchemaRef`
(section 4.1). "If the type descriptor is named (opted into being a
reusable component), the engine returns a reference and inserts a full
definition into the Registry"; recursion depth is budgeted by `fuel`,
charged once per descent into a named definition. -/
def registerDescriptor (env : DescriptorEnv) (fuel : Nat) (reg : Registry)
    (d : TypeDescriptor) : Except RegistryError (Registry × PropSchema) :=
  registerWith (descendNamed env fuel) reg d

/-- Registration of a whole named-body field list with a given depth
budget. -/
def registerObjectFields (env : DescriptorEnv) (fuel : Nat) (reg : Registry)
    (fields : List (String × TypeDescriptor × Bool)) :
    Except RegistryError (Registry × List (String × PropSchema × Bool)) :=
  registerFieldsWith (descendNamed env fuel) reg fields

/-! ## Registry lemmas -/

theorem lookup_append {α : Type _} (m : String) (l l' : List (String × α)) :
    List.lookup m (l ++ l') = ((List.lookup m l).or (List.lookup m l')) := by
  induction l with
  | nil => simp [List.lookup]
  | cons p rest ih =>
    obtain ⟨k, v⟩ := p
    simp only [List.cons_append, List.lookup]
    cases hk : (m == k) <;> simp [ih]

theorem lookup_mem {α : Type _} {m : String} {l : List (String × α)} {v : α}
    (h : List.lookup m l = some v) : (m, v) ∈ l := by
  induction l with
  | nil => simp [List.lookup] at h
  | cons p rest ih =>
    obtain ⟨k, w⟩ := p
    simp only [List.lookup] at h
    cases hk : (m == k)
    · rw [hk] at h
      exact List.mem_cons_of_mem _ (ih h)
    · rw [hk] at h
      cases h
      have hm : m = k := by simpa using hk
      subst hm
      exact List.mem_cons_self _ _

theorem mem_keys_of_lookup {α : Type _} {m : String} {l : List (String × α)} {v : α}
    (h : List.lookup m l = some v) : m ∈ l.map Prod.fst := by
  exact List.mem_map.2 ⟨(m, v), lookup_mem h, rfl⟩

/-- One registry extends another: the in-progress set is the same and every
completed definition of the first is still looked up unchanged in the
second. -/
def RegistryExtends (r₁ r₂ : Registry) : Prop :=
  r₂.inProgress = r₁.inProgress ∧ ∀ m t, r₁.lookup m = some t → r₂.lookup m = some t

theorem RegistryExtends.refl (r : Registry) : RegistryExtends r r :=
  ⟨rfl, fun _ _ h => h⟩

theorem RegistryExtends.trans {r₁ r₂ r₃ : Registry}
    (h₁ : RegistryExtends r₁ r₂) (h₂ : RegistryExtends r₂ r₃) : RegistryExtends r₁ r₃ :=
  ⟨h₂.1.trans h₁.1, fun m t h => h₂.2 m t (h₁.2 m t h)⟩

theorem insert_ok_extends {reg reg' : Registry} {n : String} {sch : MetaSchema}
    (h : reg.insert n sch = .ok reg') : RegistryExtends reg reg' := by
  unfold Registry.insert at h
  cases hl : reg.lookup n with
  | none =>
    simp only [hl] at h
    cases h
    refine ⟨rfl, fun m t hm => ?_⟩
    simp only [Registry.lookup] at hm ⊢
    rw [lookup_append, hm]
    rfl
  | some existing =>
    simp only [hl] at h
    by_cases he : existing = sch
    · simp only [if_pos he] at h
      cases h
      exact RegistryExtends.refl reg
    · simp only [if_neg he] at h
      exact Except.noConfusion h

theorem insert_ok_lookup {reg reg' : Registry} {n : String} {sch : MetaSchema}
    (h : reg.insert n sch = .ok reg') : reg'.lookup n = some sch := by
  unfold Registry.insert at h
  cases hl : reg.lookup n with
  | none =>
    simp only [hl] at h
    cases h
    simp only [Registry.lookup] at hl ⊢
    rw [lookup_append, hl]
    simp [List.lookup]
  | some existing =>
    simp only [hl] at h
    by_cases he : existing = sch
    · simp only [if_pos he] at h
      cases h
      rw [hl, he]
    · simp only [if_neg he] at h
      exact Except.noConfusion h

theorem insert_of_lookup_self {reg : Registry} {n : String} {sch : MetaSchema}
    (h : reg.lookup n = some sch) : reg.insert n sch = .ok reg := by
  unfold Registry.insert
  simp [h]

theorem insert_idem {reg reg' : Registry} {n : String} {sch : MetaSchema}
    (h : reg.insert n sch = .ok reg') : reg'.insert n sch = .ok reg' :=
  insert_of_lookup_self (insert_ok_lookup h)

theorem reserve_lookup (reg : Registry) (n m : String) :
    (reg.reserve n).lookup m = reg.lookup m := rfl

theorem finish_lookup (reg : Registry) (n m : String) :
    (reg.finish n).lookup m = reg.lookup m := rfl

theorem finish_reserve (reg : Registry) (n : String) :
    (reg.reserve n).finish n = reg := by
  simp [Registry.reserve, Registry.finish]

/-! ## State lemmas for registration -/

/-- A well-behaved descent procedure: on success it returns the reference
of the descended name, keeps the in-progress set, and preserves every
completed definition. -/
def DescendState
    (descend : Registry → String → Except RegistryError (Registry × PropSchema)) : Prop :=
  ∀ reg n reg' s, descend reg n = .ok (reg', s) →
    s = .reference n ∧ RegistryExtends reg reg'

theorem registerWith_state
    {descend : Registry → String → Except RegistryError (Registry × PropSchema)}
    (hd : DescendState descend) :
    ∀ (d : TypeDescriptor) (reg reg' : Registry) (s : PropSchema),
      registerWith descend reg d = .ok (reg', s) →
        s = schemaRefOf d ∧ RegistryExtends reg reg' := by
  intro d
  induction d with
  | prim ty =>
    intro reg reg' s h
    simp only [registerWith] at h
    cases h
    exact ⟨rfl, RegistryExtends.refl reg⟩
  | optional t ih =>
    intro reg reg' s h
    simp only [registerWith] at h
    cases hrec : registerWith descend reg t with
    | error e => simp only [hrec] at h; exact Except.noConfusion h
    | ok p =>
      obtain ⟨reg₁, s₁⟩ := p
      simp only [hrec] at h
      cases h
      obtain ⟨hs, hext⟩ := ih _ _ _ hrec
      exact ⟨by rw [hs]; rfl, hext⟩
  | sequence t ih =>
    intro reg reg' s h
    simp only [registerWith] at h
    cases hrec : registerWith descend reg t with
    | error e => simp only [hrec] at h; exact Except.noConfusion h
    | ok p =>
      obtain ⟨reg₁, s₁⟩ := p
      simp only [hrec] at h
      cases h
      obtain ⟨hs, hext⟩ := ih _ _ _ hrec
      exact ⟨by rw [hs]; rfl, hext⟩
  | mapLike t ih =>
    intro reg reg' s h
    simp only [registerWith] at h
    cases hrec : registerWith descend reg t with
    | error e => simp only [hrec] at h; exact Except.noConfusion h
    | ok p =>
      obtain ⟨reg₁, s₁⟩ := p
      simp only [hrec] at h
      cases h
      obtain ⟨hs, hext⟩ := ih _ _ _ hrec
      exact ⟨by rw [hs]; rfl, hext⟩
  | named n =>
    intro reg reg' s h
    simp only [registerWith] at h
    by_cases hn : n ∈ reg.inProgress
    · rw [if_pos hn] at h
      cases h
      exact ⟨rfl, RegistryExtends.refl reg⟩
    · rw [if_neg hn] at h
      exact hd reg n reg' s h

theorem registerFieldsWith_state
    {descend : Registry → String → Except RegistryError (Registry × PropSchema)}
    (hd : DescendState descend) :
    ∀ (l : List (String × TypeDescriptor × Bool)) (reg reg' : Registry)
      (props : List (String × PropSchema × Bool)),
      registerFieldsWith descend reg l = .ok (reg', props) →
        props = l.map (fun p => (p.1, schemaRefOf p.2.1, p.2.2)) ∧
          RegistryExtends reg reg' := by
  intro l
  induction l with
  | nil =>
    intro reg reg' props h
    simp only [registerFieldsWith] at h
    cases h
    exact ⟨rfl, RegistryExtends.refl reg⟩
  | cons p rest ih =>
    obtain ⟨f, d, req⟩ := p
    intro reg reg' props h
    simp only [registerFieldsWith] at h
    cases h₁ : registerWith descend reg d with
    | error e => simp only [h₁] at h; exact Except.noConfusion h
    | ok q =>
      obtain ⟨reg₁, s₁⟩ := q
      simp only [h₁] at h
      cases h₂ : registerFieldsWith descend reg₁ rest with
      | error e => simp only [h₂] at h; exact Except.noConfusion h
      | ok r =>
        obtain ⟨reg₂, props₂⟩ := r
        simp only [h₂] at h
        cases h
        obtain ⟨hs₁, hext₁⟩ := registerWith_state hd d _ _ _ h₁
        obtain ⟨hs₂, hext₂⟩ := ih _ _ _ h₂
        exact ⟨by rw [hs₁, hs₂]; rfl, hext₁.trans hext₂⟩

theorem descendNamed_state (env : DescriptorEnv) :
    ∀ fuel : Nat, DescendState (descendNamed env fuel) := by
  intro fuel
  induction fuel with
  | zero =>
    intro reg n reg' s h
    simp only [descendNamed] at h
    exact Except.noConfusion h
  | succ f ih =>
    intro reg n reg' s h
    simp only [descendNamed] at h
    cases he : List.lookup n env with
    | none => simp only [he] at h; exact Except.noConfusion h
    | some body =>
      simp only [he] at h
      cases body with
      | objectBody fields =>
        cases hf : registerFieldsWith (descendNamed env f) (reg.reserve n) fields with
        | error e => simp only [hf] at h; exact Except.noConfusion h
        | ok q =>
          obtain ⟨reg₁, props⟩ := q
          simp only [hf] at h
          cases hi : (reg₁.finish n).insert n (.object props none) with
          | error e => simp only [hi] at h; exact Except.noConfusion h
          | ok reg₂ =>
            simp only [hi] at h
            cases h
            refine ⟨rfl, ?_, ?_⟩
            · have hip : reg₁.inProgress = (reg.reserve n).inProgress :=
                (registerFieldsWith_state ih fields _ _ _ hf).2.1
              have hins := (insert_ok_extends hi).1
              rw [hins]
              show (reg₁.inProgress.erase n) = reg.inProgress
              rw [hip]
              show ((n :: reg.inProgress).erase n) = reg.inProgress
              simp
            · intro m t hm
              have h₁ := (registerFieldsWith_state ih fields _ _ _ hf).2.2 m t hm
              have h₂ : (reg₁.finish n).lookup m = some t := h₁
              exact (insert_ok_extends hi).2 m t h₂
      | enumBody vs =>
        cases hi : reg.insert n (.enumString vs) with
        | error e => simp only [hi] at h; exact Except.noConfusion h
        | ok reg₂ =>
          simp only [hi] at h
          cases h
          exact ⟨rfl, insert_ok_extends hi⟩


/-! ## Replay lemmas: registering again leaves the registry unchanged -/

/-- A descent procedure that can be replayed: once it has succeeded, running
it again from any registry extending the result is a no-op returning the
same reference. -/
def DescendReplay
    (descend : Registry → String → Except RegistryError (Registry × PropSchema)) : Prop :=
  ∀ reg n reg' s, descend reg n = .ok (reg', s) →
    ∀ reg₂, RegistryExtends reg' reg₂ → descend reg₂ n = .ok (reg₂, s)

theorem registerWith_replay
    {descend : Registry → String → Except RegistryError (Registry × PropSchema)}
    (hd : DescendState descend) (hr : DescendReplay descend) :
    ∀ (d : TypeDescriptor) (reg reg' : Registry) (s : PropSchema),
      registerWith descend reg d = .ok (reg', s) →
      ∀ reg₂, RegistryExtends reg' reg₂ → registerWith descend reg₂ d = .ok (reg₂, s) := by
  intro d
  induction d with
  | prim ty =>
    intro reg reg' s h reg₂ hext
    simp only [registerWith] at h ⊢
    cases h
    rfl
  | optional t ih =>
    intro reg reg' s h reg₂ hext
    simp only [registerWith] at h ⊢
    cases hrec : registerWith descend reg t with
    | error e => simp only [hrec] at h; exact Except.noConfusion h
    | ok p =>
      obtain ⟨reg₁, s₁⟩ := p
      simp only [hrec] at h
      cases h
      rw [ih _ _ _ hrec reg₂ hext]
  | sequence t ih =>
    intro reg reg' s h reg₂ hext
    simp only [registerWith] at h ⊢
    cases hrec : registerWith descend reg t with
    | error e => simp only [hrec] at h; exact Except.noConfusion h
    | ok p =>
      obtain ⟨reg₁, s₁⟩ := p
      simp only [hrec] at h
      cases h
      rw [ih _ _ _ hrec reg₂ hext]
  | mapLike t ih =>
    intro reg reg' s h reg₂ hext
    simp only [registerWith] at h ⊢
    cases hrec : registerWith descend reg t with
    | error e => simp only [hrec] at h; exact Except.noConfusion h
    | ok p =>
      obtain ⟨reg₁, s₁⟩ := p
      simp only [hrec] at h
      cases h
      rw [ih _ _ _ hrec reg₂ hext]
  | named n =>
    intro reg reg' s h reg₂ hext
    simp only [registerWith] at h ⊢
    by_cases hn : n ∈ reg.inProgress
    · rw [if_pos hn] at h
      cases h
      rw [if_pos (by rw [hext.1]; exact hn)]
    · rw [if_neg hn] at h
      have hst := hd _ _ _ _ h
      have hmem : n ∉ reg₂.inProgress := by
        rw [hext.1, hst.2.1]
        exact hn
      rw [if_neg hmem]
      exact hr _ _ _ _ h reg₂ hext

theorem registerFieldsWith_replay
    {descend : Registry → String → Except RegistryError (Registry × PropSchema)}
    (hd : DescendState descend) (hr : DescendReplay descend) :
    ∀ (l : List (String × TypeDescriptor × Bool)) (reg reg' : Registry)
      (props : List (String × PropSchema × Bool)),
      registerFieldsWith descend reg l = .ok (reg', props) →
      ∀ reg₂, RegistryExtends reg' reg₂ →
        registerFieldsWith descend reg₂ l = .ok (reg₂, props) := by
  intro l
  induction l with
  | nil =>
    intro reg reg' props h reg₂ hext
    simp only [registerFieldsWith] at h ⊢
    cases h
    rfl
  | cons p rest ih =>
    obtain ⟨f, d, req⟩ := p
    intro reg reg' props h reg₂ hext
    simp only [registerFieldsWith] at h ⊢
    cases h₁ : registerWith descend reg d with
    | error e => simp only [h₁] at h; exact Except.noConfusion h
    | ok q =>
      obtain ⟨reg₁, s₁⟩ := q
      simp only [h₁] at h
      cases h₂ : registerFieldsWith descend reg₁ rest with
      | error e => simp only [h₂] at h; exact Except.noConfusion h
      | ok r =>
        obtain ⟨reg₃, props₃⟩ := r
        simp only [h₂] at h
        cases h
        have hext₂ : RegistryExtends reg₁ reg₂ :=
          ((registerFieldsWith_state hd rest _ _ _ h₂).2).trans hext
        have hA := registerWith_replay hd hr d _ _ _ h₁ reg₂ hext₂
        have hB := ih _ _ _ h₂ reg₂ hext
        simp only [hA, hB]

theorem descendNamed_replay (env : DescriptorEnv) :
    ∀ fuel : Nat, DescendReplay (descendNamed env fuel) := by
  intro fuel
  induction fuel with
  | zero =>
    intro reg n reg' s h
    simp only [descendNamed] at h
    exact Except.noConfusion h
  | succ f ih =>
    intro reg n reg' s h reg₂ hext
    simp only [descendNamed] at h ⊢
    cases he : List.lookup n env with
    | none => simp only [he] at h; exact Except.noConfusion h
    | some body =>
      simp only [he] at h
      cases body with
      | objectBody fields =>
        cases hf : registerFieldsWith (descendNamed env f) (reg.reserve n) fields with
        | error e => simp only [hf] at h; exact Except.noConfusion h
        | ok q =>
          obtain ⟨reg₁, props⟩ := q
          simp only [hf] at h
          cases hi : (reg₁.finish n).insert n (.object props none) with
          | error e => simp only [hi] at h; exact Except.noConfusion h
          | ok reg₄ =>
            simp only [hi] at h
            cases h
            have hstate := registerFieldsWith_state (descendNamed_state env f) fields _ _ _ hf
            have hip₁ : reg₁.inProgress = n :: reg.inProgress := hstate.2.1
            have hext₁ : RegistryExtends reg₁ (reg₂.reserve n) := by
              constructor
              · show n :: reg₂.inProgress = reg₁.inProgress
                rw [hip₁, hext.1, (insert_ok_extends hi).1]
                show n :: (reg₁.inProgress.erase n) = n :: reg.inProgress
                rw [hip₁]
                simp
              · intro m t hm
                have h₂ : (reg₁.finish n).lookup m = some t := hm
                exact hext.2 m t ((insert_ok_extends hi).2 m t h₂)
            have hreplay := registerFieldsWith_replay (descendNamed_state env f) ih
              fields _ _ _ hf (reg₂.reserve n) hext₁
            have hlook : reg₂.lookup n = some (.object props none) :=
              hext.2 n _ (insert_ok_lookup hi)
            simp only [hreplay, finish_reserve, insert_of_lookup_self hlook]
      | enumBody vs =>
        cases hi : reg.insert n (.enumString vs) with
        | error e => simp only [hi] at h; exact Except.noConfusion h
        | ok reg₄ =>
          simp only [hi] at h
          cases h
          have hlook : reg₂.lookup n = some (.enumString vs) :=
            hext.2 n _ (insert_ok_lookup hi)
          simp only [insert_of_lookup_self hlook]

/-! ## Success and depth bound for recursive registration -/

/-- Every named descriptor reachable from this descriptor is defined in the
environment. -/
def closedDesc (env : DescriptorEnv) : TypeDescriptor → Bool
  | .prim _ => true
  | .optional t => closedDesc env t
  | .sequence t => closedDesc env t
  | .mapLike t => closedDesc env t
  | .named n => (List.lookup n env).isSome

/-- Every named descriptor appearing in this body is defined in the
environment. -/
def closedBody (env : DescriptorEnv) : NamedBody → Bool
  | .objectBody fields => fields.all fun p => closedDesc env p.2.1
  | .enumBody _ => true

/-- A closed environment: every body refers only to defined names. -/
def closedEnv (env : DescriptorEnv) : Bool :=
  env.all fun p => closedBody env p.2

/-- The registry agrees with the environment: every completed definition
stored under a name is the definition computed from that name's body. -/
def Consistent (env : DescriptorEnv) (reg : Registry) : Prop :=
  ∀ n s, reg.lookup n = some s →
    ∃ b, List.lookup n env = some b ∧ s = definitionOf b

/-- The number of named components that do not yet carry a reservation
marker.  Registration can descend through each named component at most once
per path — a reservation marker blocks any deeper descent into the same
name — so this count bounds the recursion-depth budget `register` needs,
independently of how many times a type refers to itself. -/
def unreservedCount (env : DescriptorEnv) (reg : Registry) : Nat :=
  (env.map Prod.fst).countP fun m => !(decide (m ∈ reg.inProgress))

theorem countP_lt_of_flip {l : List String} {p q : String → Bool}
    (hsub : ∀ m, q m = true → p m = true) {n : String}
    (hn : n ∈ l) (hp : p n = true) (hq : q n = false) :
    l.countP q < l.countP p := by
  induction l with
  | nil => cases hn
  | cons a rest ih =>
    rw [List.countP_cons, List.countP_cons]
    rcases List.mem_cons.1 hn with rfl | hmem
    · rw [hp, hq]
      have hmono : rest.countP q ≤ rest.countP p :=
        List.countP_mono_left (fun m _ hm => hsub m hm)
      show List.countP q rest + 0 < List.countP p rest + 1
      omega
    · have hlt := ih hmem
      have hif : (if q a = true then 1 else 0) ≤ (if p a = true then 1 else 0) := by
        by_cases ha : q a = true
        · simp [ha, hsub a ha]
        · simp [ha]
      omega

theorem unreservedCount_congr {env : DescriptorEnv} {r₁ r₂ : Registry}
    (h : r₂.inProgress = r₁.inProgress) :
    unreservedCount env r₂ = unreservedCount env r₁ := by
  unfold unreservedCount
  rw [h]

theorem unreservedCount_reserve_lt {env : DescriptorEnv} {reg : Registry}
    {n : String} {b : NamedBody} (hb : List.lookup n env = some b)
    (hn : n ∉ reg.inProgress) :
    unreservedCount env (reg.reserve n) < unreservedCount env reg := by
  refine countP_lt_of_flip ?_ (mem_keys_of_lookup hb) (by simpa using hn) (by simp [Registry.reserve])
  intro m hm
  simp only [Registry.reserve, Bool.not_eq_true', decide_eq_false_iff_not,
    List.mem_cons, not_or] at hm ⊢
  exact hm.2

theorem unreservedCount_pos {env : DescriptorEnv} {reg : Registry}
    {n : String} {b : NamedBody} (hb : List.lookup n env = some b)
    (hn : n ∉ reg.inProgress) : 0 < unreservedCount env reg := by
  apply List.countP_pos_iff.2
  exact ⟨n, mem_keys_of_lookup hb, by simpa using hn⟩

theorem closedEnv_lookup {env : DescriptorEnv} {n : String} {b : NamedBody}
    (henv : closedEnv env = true) (hb : List.lookup n env = some b) :
    closedBody env b = true := by
  have hmem := lookup_mem hb
  exact List.all_eq_true.1 henv (n, b) hmem

theorem lookup_singleton {α : Type _} (m n : String) (v : α) :
    List.lookup m [(n, v)] = if m == n then some v else none := by
  simp only [List.lookup]
  cases h : (m == n) <;> simp

/-- Successful insertion of the definition computed from the environment
body keeps the registry consistent. -/
theorem insert_definition_ok {env : DescriptorEnv} {reg : Registry}
    {n : String} {b : NamedBody} (hcons : Consistent env reg)
    (hb : List.lookup n env = some b) :
    ∃ reg', reg.insert n (definitionOf b) = .ok reg' ∧
      Consistent env reg' ∧ RegistryExtends reg reg' := by
  cases hl : reg.lookup n with
  | none =>
    refine ⟨{ reg with schemas := reg.schemas ++ [(n, definitionOf b)] }, ?_, ?_, ?_⟩
    · simp only [Registry.insert, hl]
    · intro m s hm
      simp only [Registry.lookup] at hm
      rw [lookup_append] at hm
      cases hm₁ : List.lookup m reg.schemas with
      | some t =>
        rw [hm₁] at hm
        cases hm
        exact hcons m _ hm₁
      | none =>
        rw [hm₁] at hm
        simp only [Option.or] at hm
        rw [lookup_singleton] at hm
        by_cases hmn : m = n
        · subst hmn
          simp at hm
          exact ⟨b, hb, hm.symm⟩
        · rw [if_neg (by simpa using hmn)] at hm
          exact Option.noConfusion hm
    · refine ⟨rfl, fun m t hm => ?_⟩
      simp only [Registry.lookup] at hm ⊢
      rw [lookup_append, hm]
      rfl
  | some existing =>
    obtain ⟨b', hb', hdef⟩ := hcons n existing hl
    rw [hb] at hb'
    cases hb'
    refine ⟨reg, ?_, hcons, RegistryExtends.refl reg⟩
    rw [← hdef]
    exact insert_of_lookup_self hl

theorem registerWith_success (env : DescriptorEnv)
    {descend : Registry → String → Except RegistryError (Registry × PropSchema)}
    (P : Registry → Prop)
    (hd : ∀ reg n b, P reg → List.lookup n env = some b → n ∉ reg.inProgress →
      ∃ reg', descend reg n = .ok (reg', .reference n) ∧ P reg' ∧
        RegistryExtends reg reg') :
    ∀ (d : TypeDescriptor) (reg : Registry), closedDesc env d = true → P reg →
      ∃ reg', registerWith descend reg d = .ok (reg', schemaRefOf d) ∧ P reg' ∧
        RegistryExtends reg reg' := by
  intro d
  induction d with
  | prim ty =>
    intro reg _ hP
    exact ⟨reg, rfl, hP, RegistryExtends.refl reg⟩
  | optional t ih =>
    intro reg hc hP
    obtain ⟨reg', heq, hP', hext⟩ := ih reg (by simpa [closedDesc] using hc) hP
    exact ⟨reg', by simp only [registerWith, heq, schemaRefOf], hP', hext⟩
  | sequence t ih =>
    intro reg hc hP
    obtain ⟨reg', heq, hP', hext⟩ := ih reg (by simpa [closedDesc] using hc) hP
    exact ⟨reg', by simp only [registerWith, heq, schemaRefOf], hP', hext⟩
  | mapLike t ih =>
    intro reg hc hP
    obtain ⟨reg', heq, hP', hext⟩ := ih reg (by simpa [closedDesc] using hc) hP
    exact ⟨reg', by simp only [registerWith, heq, schemaRefOf], hP', hext⟩
  | named n =>
    intro reg hc hP
    by_cases hn : n ∈ reg.inProgress
    · exact ⟨reg, by simp [registerWith, hn, schemaRefOf], hP, RegistryExtends.refl reg⟩
    · simp only [closedDesc, Option.isSome_iff_exists] at hc
      obtain ⟨b, hb⟩ := hc
      obtain ⟨reg', heq, hP', hext⟩ := hd reg n b hP hb hn
      exact ⟨reg', by simp only [registerWith, if_neg hn, heq, schemaRefOf], hP', hext⟩

theorem registerFieldsWith_success (env : DescriptorEnv)
    {descend : Registry → String → Except RegistryError (Registry × PropSchema)}
    (P : Registry → Prop)
    (hd : ∀ reg n b, P reg → List.lookup n env = some b → n ∉ reg.inProgress →
      ∃ reg', descend reg n = .ok (reg', .reference n) ∧ P reg' ∧
        RegistryExtends reg reg') :
    ∀ (l : List (String × TypeDescriptor × Bool)) (reg : Registry),
      (l.all fun p => closedDesc env p.2.1) = true → P reg →
      ∃ reg', registerFieldsWith descend reg l =
          .ok (reg', l.map fun p => (p.1, schemaRefOf p.2.1, p.2.2)) ∧ P reg' ∧
        RegistryExtends reg reg' := by
  intro l
  induction l with
  | nil =>
    intro reg _ hP
    exact ⟨reg, rfl, hP, RegistryExtends.refl reg⟩
  | cons p rest ih =>
    obtain ⟨f, d, req⟩ := p
    intro reg hc hP
    simp only [List.all_cons, Bool.and_eq_true] at hc
    obtain ⟨reg₁, heq₁, hP₁, hext₁⟩ := registerWith_success env P hd d reg hc.1 hP
    obtain ⟨reg₂, heq₂, hP₂, hext₂⟩ := ih reg₁ hc.2 hP₁
    exact ⟨reg₂, by simp only [registerFieldsWith, heq₁, heq₂, List.map_cons],
      hP₂, hext₁.trans hext₂⟩

theorem descendNamed_success {env : DescriptorEnv} (henv : closedEnv env = true) :
    ∀ (fuel : Nat) (reg : Registry) (n : String) (b : NamedBody),
      Consistent env reg → List.lookup n env = some b → n ∉ reg.inProgress →
      unreservedCount env reg ≤ fuel →
      ∃ reg', descendNamed env fuel reg n = .ok (reg', .reference n) ∧
        Consistent env reg' ∧ RegistryExtends reg reg' := by
  intro fuel
  induction fuel with
  | zero =>
    intro reg n b hcons hb hn hfuel
    have := unreservedCount_pos hb hn
    omega
  | succ f ih =>
    intro reg n b hcons hb hn hfuel
    cases b with
    | objectBody fields =>
      have hP₀ : Consistent env (reg.reserve n) ∧
          unreservedCount env (reg.reserve n) ≤ f := by
        refine ⟨fun m s hm => hcons m s hm, ?_⟩
        have := unreservedCount_reserve_lt hb hn
        omega
      obtain ⟨reg₁, heq₁, hP₁, hext₁⟩ :=
        registerFieldsWith_success env
          (fun r => Consistent env r ∧ unreservedCount env r ≤ f)
          (fun reg₂ n₂ b₂ hP hlook hmem => by
            obtain ⟨reg', heq, hcons', hext⟩ := ih reg₂ n₂ b₂ hP.1 hlook hmem hP.2
            exact ⟨reg', heq, ⟨hcons', by rw [unreservedCount_congr hext.1]; exact hP.2⟩,
              hext⟩)
          fields (reg.reserve n)
          (by simpa [closedBody] using closedEnv_lookup henv hb) hP₀
      have hconsf : Consistent env (reg₁.finish n) := fun m s hm => hP₁.1 m s hm
      obtain ⟨reg₂, heq₂, hcons₂, hext₂⟩ := insert_definition_ok hconsf hb
      refine ⟨reg₂, ?_, hcons₂, ?_⟩
      · have hdef : definitionOf (.objectBody fields) =
            .object (fields.map fun p => (p.1, schemaRefOf p.2.1, p.2.2)) none := rfl
        rw [hdef] at heq₂
        simp only [descendNamed, hb, heq₁, heq₂]
      · refine ⟨?_, ?_⟩
        · rw [hext₂.1]
          show reg₁.inProgress.erase n = reg.inProgress
          rw [hext₁.1]
          show (n :: reg.inProgress).erase n = reg.inProgress
          simp
        · intro m t hm
          have h₁ : reg₁.lookup m = some t := hext₁.2 m t hm
          have h₂ : (reg₁.finish n).lookup m = some t := h₁
          exact hext₂.2 m t h₂
    | enumBody vs =>
      obtain ⟨reg₂, heq₂, hcons₂, hext₂⟩ := insert_definition_ok hcons hb
      refine ⟨reg₂, ?_, hcons₂, hext₂⟩
      have hdef : definitionOf (.enumBody vs) = .enumString vs := rfl
      rw [hdef] at heq₂
      simp only [descendNamed, hb, heq₂]

/-- Registration succeeds, returning the pure schema reference of the
descriptor, whenever the environment is closed, the registry is consistent
with it, and the depth budget is at least the number of unreserved named
components. -/
theorem registerDescriptor_success {env : DescriptorEnv} {fuel : Nat}
    {reg : Registry} {d : TypeDescriptor}
    (henv : closedEnv env = true) (hd : closedDesc env d = true)
    (hcons : Consistent env reg) (hfuel : unreservedCount env reg ≤ fuel) :
    ∃ reg', registerDescriptor env fuel reg d = .ok (reg', schemaRefOf d) ∧
      Consistent env reg' := by
  obtain ⟨reg', heq, hP, _⟩ :=
    registerWith_success env
      (fun r => Consistent env r ∧ unreservedCount env r ≤ fuel)
      (fun reg₂ n₂ b₂ hP hlook hmem => by
        obtain ⟨reg', heq, hcons', hext⟩ :=
          descendNamed_success henv fuel reg₂ n₂ b₂ hP.1 hlook hmem hP.2
        exact ⟨reg', heq, ⟨hcons', by rw [unreservedCount_congr hext.1]; exact hP.2⟩,
          hext⟩)
      d reg hd ⟨hcons, hfuel⟩
  exact ⟨reg', heq, hP.1⟩

/-! ## Concrete build scenarios -/

/-- The self-referential type of the spec's example: an object whose field
is a sequence of itself. -/
def selfRefEnv : DescriptorEnv :=
  [("T", .objectBody [("children", .sequence (.named "T"), true)])]

/-- The registry produced by registering `T` from `selfRefEnv`: the nested
field of the completed definition references the type's own registered
name. -/
def selfRefRegistry : Registry :=
  { schemas := [("T", .object [("children", .array (.reference "T"), true)] none)],
    inProgress := [] }

/-! ## Claims C1-C3 -/

/-- Claim C1: for every type descriptor, calling `register` twice with the
descriptor structurally unchanged between the calls yields a Registry
identical to the one after the first call (registration is idempotent),
and re-registering the same name with structurally identical content
through `Registry.insert` is a no-op. -/
theorem register_idempotent :
    (∀ (env : DescriptorEnv) (fuel : Nat) (reg reg' : Registry)
      (d : TypeDescriptor) (s : PropSchema),
      registerDescriptor env fuel reg d = .ok (reg', s) →
      registerDescriptor env fuel reg' d = .ok (reg', s)) ∧
    (∀ (reg reg' : Registry) (n : String) (sch : MetaSchema),
      reg.insert n sch = .ok reg' → reg'.insert n sch = .ok reg') := by
  constructor
  · intro env fuel reg reg' d s h
    exact registerWith_replay (descendNamed_state env fuel) (descendNamed_replay env fuel)
      d reg reg' s h reg' (RegistryExtends.refl reg')
  · intro reg reg' n sch h
    exact insert_idem h

/-- Witness for C1 on the concrete self-referential environment and on a
concrete insert. -/
theorem register_idempotent_witness :
    registerDescriptor selfRefEnv 1 selfRefRegistry (.named "T") =
      .ok (selfRefRegistry, .reference "T") ∧
    ({ schemas := [("N", .enumString ["a"])], inProgress := [] } : Registry).insert
        "N" (.enumString ["a"]) =
      .ok { schemas := [("N", .enumString ["a"])], inProgress := [] } :=
  ⟨register_idempotent.1 selfRefEnv 1 Registry.empty selfRefRegistry
      (.named "T") (.reference "T") (by decide),
    register_idempotent.2 Registry.empty
      { schemas := [("N", .enumString ["a"])], inProgress := [] }
      "N" (.enumString ["a"]) (by decide)⟩

/-- Claim C2: inserting a schema under a name and then inserting a
structurally different schema under the same name fails with
`NameConflict`; `insert` succeeds silently exactly when no entry exists
under the name or an identical entry exists. -/
theorem insert_name_conflict :
    (∀ (reg reg' : Registry) (n : String) (s₁ s₂ : MetaSchema),
      s₁ ≠ s₂ → reg.insert n s₁ = .ok reg' →
      reg'.insert n s₂ = .error (.nameConflict n)) ∧
    (∀ (reg : Registry) (n : String) (s : MetaSchema),
      (∃ reg', reg.insert n s = .ok reg') ↔
        (reg.lookup n = none ∨ reg.lookup n = some s)) := by
  constructor
  · intro reg reg' n s₁ s₂ hne h
    have hl := insert_ok_lookup h
    simp only [Registry.insert, hl, if_neg hne]
  · intro reg n s
    constructor
    · rintro ⟨reg', h⟩
      unfold Registry.insert at h
      cases hl : reg.lookup n with
      | none => exact .inl rfl
      | some existing =>
        simp only [hl] at h
        by_cases he : existing = s
        · right
          rw [he]
        · simp only [if_neg he] at h
          exact Except.noConfusion h
    · rintro (hl | hl)
      · exact ⟨{ reg with schemas := reg.schemas ++ [(n, s)] },
          by simp only [Registry.insert, hl]⟩
      · exact ⟨reg, insert_of_lookup_self hl⟩

/-- Witness for C2 at two concrete schemas under a shared name. -/
theorem insert_name_conflict_witness :
    ({ schemas := [("N", .enumString ["a"])], inProgress := [] } : Registry).insert
        "N" (.enumString ["b"]) = .error (.nameConflict "N") ∧
    (∃ reg', Registry.empty.insert "M" (.object [] none) = .ok reg') :=
  ⟨insert_name_conflict.1 Registry.empty
      { schemas := [("N", .enumString ["a"])], inProgress := [] }
      "N" (.enumString ["a"]) (.enumString ["b"]) (by decide) (by decide),
    (insert_name_conflict.2 Registry.empty "M" (.object [] none)).2 (.inl (by decide))⟩

/-- Claim C3: a recursive occurrence of a name carrying a reservation
marker returns the reference immediately with the registry untouched;
registration of any closed descriptor over a closed environment succeeds
whenever the depth budget is at least the number of unreserved named
components — a bound given by the type graph's structure, never by the
number of self-references; and the spec's self-referential example (an
object whose field is a sequence of itself) registers with budget 1,
producing a definition whose nested field references the type's own
registered name. -/
theorem register_recursive_bounded :
    (∀ (env : DescriptorEnv) (fuel : Nat) (reg : Registry) (n : String),
      n ∈ reg.inProgress →
      registerDescriptor env fuel reg (.named n) = .ok (reg, .reference n)) ∧
    (∀ (env : DescriptorEnv) (fuel : Nat) (reg : Registry) (d : TypeDescriptor),
      closedEnv env = true → closedDesc env d = true → Consistent env reg →
      unreservedCount env reg ≤ fuel →
      ∃ reg', registerDescriptor env fuel reg d = .ok (reg', schemaRefOf d) ∧
        Consistent env reg') ∧
    registerDescriptor selfRefEnv 1 Registry.empty (.named "T") =
      .ok (selfRefRegistry, .reference "T") := by
  refine ⟨?_, ?_, by decide⟩
  · intro env fuel reg n hn
    simp [registerDescriptor, registerWith, hn]
  · intro env fuel reg d henv hd hcons hfuel
    exact registerDescriptor_success henv hd hcons hfuel

/-- Witness for C3: the reservation short-circuit at a reserved name, and
bounded-successful registration of the self-referential example. -/
theorem register_recursive_bounded_witness :
    registerDescriptor selfRefEnv 5 { schemas := [], inProgress := ["T"] }
        (.named "T") =
      .ok ({ schemas := [], inProgress := ["T"] }, .reference "T") ∧
    ∃ reg', registerDescriptor selfRefEnv 1 Registry.empty (.named "T") =
        .ok (reg', schemaRefOf (.named "T")) ∧ Consistent selfRefEnv reg' :=
  ⟨register_recursive_bounded.1 selfRefEnv 5
      { schemas := [], inProgress := ["T"] } "T" (by decide),
    register_recursive_bounded.2.1 selfRefEnv 1 Registry.empty (.named "T")
      (by decide) (by decide) (fun _ _ h => Option.noConfusion h) (by decide)⟩

/-! ## Path templates and parameters (modelling the missing `path_util.rs`
and `base.rs`) -/

/-- Modelled from the spec: `path_util.rs` is missing. One segment of a
path template, pre-split at the `/` separators: either a literal segment or
a `\x7bname\x7d` placeholder. -/
inductive PathSeg where
  | literal (s : String)
  | param (name : String)
deriving DecidableEq, Repr

/-- The placeholder names of a path template, in order. -/
def pathPlaceholders (segs : List PathSeg) : List String :=
  segs.filterMap fun seg =>
    match seg with
    | .param n => some n
    | .literal _ => none

/-- Modelled from the spec: `base.rs` (which declares `ParameterStyle`) is
missing. The serialization convention of a composite parameter value:
comma-joined versus repeated-key (glossary); the spec fixes the rules for
the query/header style `form`. -/
inductive ParameterStyle where
  | form
  | simple
deriving DecidableEq, Repr

/-- The parameter location (path, query, header or cookie, section 3). -/
inductive ParamLocation where
  | path
  | query
  | header
  | cookie
deriving DecidableEq, Repr

/-- Modelled from the spec: a Parameter carries "name, location
(path | query | header | cookie), serialization style, explode flag,
required flag, default value, schema reference" (section 3). -/
structure Parameter where
  name : String
  location : ParamLocation
  style : ParameterStyle
  explode : Bool
  required : Bool
  defaultValue : Option String
  schema : PropSchema
deriving DecidableEq, Repr

/-- Modelled from the spec: a RequestBody is a "mapping from content-type
to schema reference, required flag" (section 3). -/
structure RequestBody where
  content : List (String × PropSchema)
  required : Bool
deriving DecidableEq, Repr

/-- The HTTP method of an operation. -/
inductive HttpMethod where
  | get
  | post
  | put
  | delete
  | patch
  | head
  | options
  | trace
deriving DecidableEq, Repr

/-- A response key: a status code or the sentinel "default" (section 3). -/
inductive StatusKey where
  | code (c : Nat)
  | defaultResponse
deriving DecidableEq, Repr

/-- Modelled from the spec: a ResponseSpec carries "status code or the
sentinel default, description, mapping from content-type to schema
reference, header set" (section 3). -/
structure ResponseSpec where
  status : StatusKey
  description : String
  content : List (String × PropSchema)
  headers : List String
deriving DecidableEq, Repr

/-- Modelled from the spec: an Operation is "identifier, path template,
HTTP method, tag set, ordered parameter list, optional request body,
mapping from status to ResponseSpec, security requirement set, deprecation
flag" (section 3). -/
structure Operation where
  identifier : String
  path : List PathSeg
  method : HttpMethod
  tags : List String
  params : List Parameter
  requestBody : Option RequestBody
  responses : List ResponseSpec
  security : List String
  deprecated : Bool
deriving DecidableEq, Repr

/-! ## Parameter serialization (spec section 4.3, claim C5) -/

/-- Modelled from the spec: the serialization-style rules of section 4.3,
for one parameter slot holding an already-rendered array value:
"query/header style form unexploded serializes array values as a single
comma-joined value; exploded style repeats the parameter key once per
element"; the simple convention is the comma-joined one of the glossary. -/
def serializeParam (style : ParameterStyle) (explode : Bool) (key : String)
    (values : List String) : List (String × String) :=
  match style, explode with
  | .form, true => values.map fun v => (key, v)
  | .form, false => [(key, String.intercalate "," values)]
  | .simple, _ => [(key, String.intercalate "," values)]

/-! ## OperationBuilder (spec section 4.5, claim C4) -/

/-- Modelled from the spec: the build-time errors of sections 4.5-4.6, all
fatal: they abort service construction. -/
inductive BuildError where
  | pathParameterMismatch
  | duplicateParameter
  | undeclaredSecurityScheme
  | duplicatePathMethod
deriving DecidableEq, Repr

/-- The two string lists hold the same set of elements (both inclusions). -/
def sameStringSet (a b : List String) : Bool :=
  (a.all fun s => decide (s ∈ b)) && (b.all fun s => decide (s ∈ a))

/-- The names of the Path-location parameters of a parameter list. -/
def pathParamNames (params : List Parameter) : List String :=
  (params.filter fun p => decide (p.location = ParamLocation.path)).map (·.name)

/-- Some key occurs twice in the list. -/
def hasDupKeys {α : Type _} [DecidableEq α] : List α → Bool
  | [] => false
  | k :: rest => decide (k ∈ rest) || hasDupKeys rest

/-- Modelled from the spec: the OperationBuilder validation of section 4.5,
performed at build time against the document-level declared security
scheme names: `PathParameterMismatch` if path-template placeholders and
Path-location parameters disagree, `DuplicateParameter` if two parameters
share (name, location), `UndeclaredSecurityScheme` if a referenced scheme
name is not declared; otherwise the validated Operation is produced. -/
def buildOperation (declaredSchemes : List String) (op : Operation) :
    Except BuildError Operation :=
  if !(sameStringSet (pathPlaceholders op.path) (pathParamNames op.params)) then
    .error .pathParameterMismatch
  else if hasDupKeys (op.params.map fun p => (p.name, p.location)) then
    .error .duplicateParameter
  else if !(op.security.all fun s => decide (s ∈ declaredSchemes)) then
    .error .undeclaredSecurityScheme
  else
    .ok op

/-- A route that declares the placeholder `\x7bid\x7d` under `/users` and a
matching Path-location parameter `id`. -/
def usersIdOp : Operation :=
  { identifier := "get_user", path := [.literal "users", .param "id"],
    method := .get, tags := [],
    params := [⟨"id", .path, .simple, false, true, none, .prim "string"⟩],
    requestBody := none, responses := [], security := [], deprecated := false }

/-- The same route with the `id` placeholder left without any Path-location
parameter. -/
def usersIdOpNoParam : Operation :=
  { usersIdOp with params := [] }

theorem sameStringSet_iff (a b : List String) :
    sameStringSet a b = true ↔ ∀ s, s ∈ a ↔ s ∈ b := by
  unfold sameStringSet
  simp only [Bool.and_eq_true, List.all_eq_true, decide_eq_true_eq]
  constructor
  · rintro ⟨h1, h2⟩ s
    exact ⟨fun hs => h1 s hs, fun hs => h2 s hs⟩
  · intro h
    exact ⟨fun s hs => (h s).1 hs, fun s hs => (h s).2 hs⟩

/-! ## Claims C4 and C5 -/

/-- Claim C4: for every Operation accepted by the OperationBuilder, the set
of placeholder names in its path template equals exactly the set of names
of its Path-location parameters (both inclusions hold); any disagreement is
rejected at build time with the fatal error `PathParameterMismatch`. -/
theorem path_params_match :
    (∀ (declaredSchemes : List String) (op op' : Operation),
      buildOperation declaredSchemes op = .ok op' →
      ∀ s, s ∈ pathPlaceholders op'.path ↔ s ∈ pathParamNames op'.params) ∧
    (∀ (declaredSchemes : List String) (op : Operation),
      ¬ (∀ s, s ∈ pathPlaceholders op.path ↔ s ∈ pathParamNames op.params) →
      buildOperation declaredSchemes op = .error .pathParameterMismatch) := by
  constructor
  · intro ds op op' h
    unfold buildOperation at h
    by_cases h1 : (!(sameStringSet (pathPlaceholders op.path) (pathParamNames op.params))) = true
    · rw [if_pos h1] at h
      exact Except.noConfusion h
    · rw [if_neg h1] at h
      by_cases h2 : hasDupKeys (op.params.map fun p => (p.name, p.location)) = true
      · rw [if_pos h2] at h
        exact Except.noConfusion h
      · rw [if_neg h2] at h
        by_cases h3 : (!(op.security.all fun s => decide (s ∈ ds))) = true
        · rw [if_pos h3] at h
          exact Except.noConfusion h
        · rw [if_neg h3] at h
          cases h
          exact (sameStringSet_iff _ _).1 (by simpa using h1)
  · intro ds op hne
    have hb : (!(sameStringSet (pathPlaceholders op.path) (pathParamNames op.params))) = true := by
      simp only [Bool.not_eq_true']
      by_contra hb
      exact hne ((sameStringSet_iff _ _).1 (by simpa using hb))
    unfold buildOperation
    rw [if_pos hb]

/-- Witness for C4: a matched placeholder/parameter pair is accepted with
the sets agreeing, and dropping the parameter is rejected with
`PathParameterMismatch`. -/
theorem path_params_match_witness :
    (∀ s, s ∈ pathPlaceholders usersIdOp.path ↔ s ∈ pathParamNames usersIdOp.params) ∧
    buildOperation [] usersIdOpNoParam = .error .pathParameterMismatch :=
  ⟨path_params_match.1 [] usersIdOp usersIdOp (by decide),
    path_params_match.2 [] usersIdOpNoParam
      (fun hall => absurd ((hall "id").1 (by decide)) (by decide))⟩

/-- Claim C5: a query parameter with style=form and explode=false
serializes the array value [1,2,3] to the single comma-joined string
"1,2,3"; with explode=true it serializes as the parameter key repeated once
per element, one key-value pair for each of 1, 2 and 3. -/
theorem form_style_serialization :
    ∀ key : String,
      serializeParam .form false key (([1, 2, 3] : List Int).map toString) =
        [(key, "1,2,3")] ∧
      serializeParam .form true key (([1, 2, 3] : List Int).map toString) =
        [(key, "1"), (key, "2"), (key, "3")] := by
  intro key
  exact ⟨rfl, rfl⟩

/-! ## Runtime request matching (spec section 4.6, claim C7) -/

/-- Modelled from the spec: a route segment matches an incoming path
segment when it is the same literal; a placeholder segment matches any
incoming segment. -/
def segMatches : PathSeg → String → Bool
  | .literal s, x => decide (s = x)
  | .param _, _ => true

/-- Modelled from the spec: "candidate routes are those whose literal path
segments match" at the incoming path's segment depth (section 4.6). -/
def routeMatches (route : List PathSeg) (path : List String) : Bool :=
  decide (route.length = path.length) &&
    (route.zip path).all fun p => segMatches p.1 p.2

/-- The count of literal (non-parameterized) segments of a route. -/
def literalCount (route : List PathSeg) : Nat :=
  route.countP fun seg =>
    match seg with
    | .literal _ => true
    | .param _ => false

/-- Keeps whichever of the current best candidate and the next candidate
has the greater count of literal segments, preferring the current best on
ties. -/
def pickBetter {α : Type _} (best : Option (List PathSeg × α)) (r : List PathSeg × α) :
    Option (List PathSeg × α) :=
  match best with
  | none => some r
  | some b => if literalCount b.1 < literalCount r.1 then some r else some b

/-- Modelled from the spec: runtime request matching against the dispatch
table (section 4.6) — "candidate routes are those whose literal path
segments match; among candidates at equal segment depth, the route with the
greater count of literal (non-parameterized) matching segments wins
(longest-literal-prefix tie-break)". -/
def selectRoute {α : Type _} (routes : List (List PathSeg × α)) (path : List String) :
    Option (List PathSeg × α) :=
  (routes.filter fun r => routeMatches r.1 path).foldl pickBetter none

theorem pickBetter_fold_spec {α : Type _} :
    ∀ (l : List (List PathSeg × α)) (acc : Option (List PathSeg × α))
      (r : List PathSeg × α),
      l.foldl pickBetter acc = some r →
      (r ∈ l ∨ acc = some r) ∧
        (∀ x ∈ l, literalCount x.1 ≤ literalCount r.1) ∧
        (∀ b, acc = some b → literalCount b.1 ≤ literalCount r.1) := by
  intro l
  induction l with
  | nil =>
    intro acc r h
    simp only [List.foldl_nil] at h
    refine ⟨.inr h, by simp, fun b hb => ?_⟩
    rw [hb] at h
    cases h
    exact Nat.le_refl _
  | cons x rest ih =>
    intro acc r h
    simp only [List.foldl_cons] at h
    cases acc with
    | none =>
      obtain ⟨hmem, hall, hacc⟩ := ih (some x) r h
      refine ⟨?_, ?_, ?_⟩
      · rcases hmem with hm | he
        · exact .inl (List.mem_cons_of_mem _ hm)
        · cases he
          exact .inl (List.mem_cons_self _ _)
      · intro y hy
        rcases List.mem_cons.1 hy with rfl | hy'
        · exact hacc _ rfl
        · exact hall y hy'
      · intro b hb
        exact Option.noConfusion hb
    | some b =>
      by_cases hlt : literalCount b.1 < literalCount x.1
      · have h' : rest.foldl pickBetter (some x) = some r := by
          simpa [pickBetter, hlt] using h
        obtain ⟨hmem, hall, hacc⟩ := ih (some x) r h'
        refine ⟨?_, ?_, ?_⟩
        · rcases hmem with hm | he
          · exact .inl (List.mem_cons_of_mem _ hm)
          · cases he
            exact .inl (List.mem_cons_self _ _)
        · intro y hy
          rcases List.mem_cons.1 hy with rfl | hy'
          · exact hacc _ rfl
          · exact hall y hy'
        · intro b' hb'
          cases hb'
          exact Nat.le_trans (Nat.le_of_lt hlt) (hacc x rfl)
      · have h' : rest.foldl pickBetter (some b) = some r := by
          simpa [pickBetter, hlt] using h
        obtain ⟨hmem, hall, hacc⟩ := ih (some b) r h'
        refine ⟨?_, ?_, ?_⟩
        · rcases hmem with hm | he
          · exact .inl (List.mem_cons_of_mem _ hm)
          · exact .inr he
        · intro y hy
          rcases List.mem_cons.1 hy with rfl | hy'
          · exact Nat.le_trans (Nat.le_of_not_lt hlt) (hacc b rfl)
          · exact hall y hy'
        · exact hacc

/-! ## Document assembly (spec section 4.6, claim C8) -/

/-- The dispatch key of an operation: its (path template, method) pair. -/
def opKey (op : Operation) : List PathSeg × HttpMethod :=
  (op.path, op.method)

/-- Modelled from the spec: merging one operation into the path-to-method
mapping; "a duplicate (path, method) pair is a fatal `DuplicatePathMethod`
build error" (section 4.6). -/
def insertOperation (table : List ((List PathSeg × HttpMethod) × Operation))
    (op : Operation) :
    Except BuildError (List ((List PathSeg × HttpMethod) × Operation)) :=
  if table.any fun e => decide (e.1 = opKey op) then
    .error .duplicatePathMethod
  else
    .ok (table ++ [(opKey op, op)])

/-- Merges a list of operations into the mapping, left to right. -/
def mergeOperations (table : List ((List PathSeg × HttpMethod) × Operation)) :
    List Operation →
      Except BuildError (List ((List PathSeg × HttpMethod) × Operation))
  | [] => .ok table
  | op :: rest =>
    match insertOperation table op with
    | .ok table' => mergeOperations table' rest
    | .error e => .error e

/-- Modelled from the spec: the final immutable Document — info block,
server list, ordered path-to-method mapping, the frozen Registry, tag list
and webhook operations (section 3). -/
structure Document where
  info : String
  servers : List String
  paths : List ((List PathSeg × HttpMethod) × Operation)
  registry : Registry
  tags : List String
  webhooks : List (String × Operation)
deriving DecidableEq, Repr

/-- Modelled from the spec: the DocumentAssembler "merges operations from
one or more operation groups into the path-to-method mapping" and registers
webhook operations separately, producing the final immutable Document
(section 4.6); on a duplicate (path, method) pair the whole assembly fails
with `DuplicatePathMethod` and no Document is produced. -/
def assembleDocument (info : String) (servers : List String) (registry : Registry)
    (tags : List String) (groups : List (List Operation))
    (webhooks : List (String × Operation)) : Except BuildError Document :=
  match mergeOperations [] groups.flatten with
  | .ok table =>
    .ok { info := info, servers := servers, paths := table, registry := registry,
          tags := tags, webhooks := webhooks }
  | .error e => .error e

theorem mergeOperations_error_eq :
    ∀ (ops : List Operation) (table : List ((List PathSeg × HttpMethod) × Operation))
      (e : BuildError),
      mergeOperations table ops = .error e → e = .duplicatePathMethod := by
  intro ops
  induction ops with
  | nil =>
    intro table e h
    simp only [mergeOperations] at h
    exact Except.noConfusion h
  | cons op rest ih =>
    intro table e h
    simp only [mergeOperations] at h
    unfold insertOperation at h
    by_cases hdup : (table.any fun x => decide (x.1 = opKey op)) = true
    · rw [if_pos hdup] at h
      simp only at h
      cases h
      rfl
    · rw [if_neg hdup] at h
      simp only at h
      exact ih _ e h

theorem mergeOperations_ok_nodup :
    ∀ (ops : List Operation) (table : List ((List PathSeg × HttpMethod) × Operation))
      (t : List ((List PathSeg × HttpMethod) × Operation)),
      (table.map (·.1)).Nodup → mergeOperations table ops = .ok t →
      ((table.map (·.1)) ++ ops.map opKey).Nodup := by
  intro ops
  induction ops with
  | nil =>
    intro table t hn h
    simpa using hn
  | cons op rest ih =>
    intro table t hn h
    simp only [mergeOperations] at h
    unfold insertOperation at h
    by_cases hdup : (table.any fun x => decide (x.1 = opKey op)) = true
    · rw [if_pos hdup] at h
      simp only at h
      exact Except.noConfusion h
    · rw [if_neg hdup] at h
      simp only at h
      have hnotin : opKey op ∉ table.map (·.1) := by
        intro hmem
        apply hdup
        rw [List.any_eq_true]
        obtain ⟨x, hx, hx1⟩ := List.mem_map.1 hmem
        exact ⟨x, hx, by simp [hx1]⟩
      have hn' : ((table ++ [(opKey op, op)]).map (·.1)).Nodup := by
        rw [List.map_append]
        simp only [List.map_cons, List.map_nil]
        have hperm : (table.map (·.1) ++ [opKey op]).Perm (opKey op :: table.map (·.1)) :=
          List.perm_append_singleton _ _
        rw [hperm.nodup_iff]
        exact List.nodup_cons.2 ⟨hnotin, hn⟩
      have := ih (table ++ [(opKey op, op)]) t hn' h
      rw [List.map_append] at this
      simp only [List.map_cons, List.map_nil] at this
      rw [List.append_assoc] at this
      simpa using this

/-! ## Claims C7 and C8 -/

/-- Claim C7: runtime request matching selects among candidate routes whose
literal segments match, and among candidates at equal segment depth the
route with the greater count of literal (non-parameterized) matching
segments wins; in particular, with the routes for `/users/\x7bid\x7d` and
`/users/me` both registered, a request to `/users/me` dispatches to the
literal route. -/
theorem literal_route_precedence :
    (∀ (α : Type) (routes : List (List PathSeg × α)) (path : List String)
      (r : List PathSeg × α),
      selectRoute routes path = some r →
      r ∈ routes ∧ routeMatches r.1 path = true ∧
        ∀ x ∈ routes, routeMatches x.1 path = true →
          literalCount x.1 ≤ literalCount r.1) ∧
    selectRoute [([.literal "users", .param "id"], "param_route"),
        ([.literal "users", .literal "me"], "literal_route")] ["users", "me"] =
      some ([.literal "users", .literal "me"], "literal_route") := by
  constructor
  · intro α routes path r h
    unfold selectRoute at h
    obtain ⟨hmem, hall, _⟩ := pickBetter_fold_spec _ _ _ h
    rcases hmem with hm | he
    · have hf := List.mem_filter.1 hm
      exact ⟨hf.1, hf.2, fun x hx hmx => hall x (List.mem_filter.2 ⟨hx, hmx⟩)⟩
    · exact Option.noConfusion he
  · decide

/-- Witness for C7, instantiating the selection property on the concrete
route pair of the claim. -/
theorem literal_route_precedence_witness :
    ([.literal "users", .literal "me"], "literal_route") ∈
        ([([.literal "users", .param "id"], "param_route"),
          ([.literal "users", .literal "me"], "literal_route")] :
          List (List PathSeg × String)) ∧
      routeMatches [.literal "users", .literal "me"] ["users", "me"] = true ∧
      ∀ x ∈ ([([.literal "users", .param "id"], "param_route"),
          ([.literal "users", .literal "me"], "literal_route")] :
          List (List PathSeg × String)),
        routeMatches x.1 ["users", "me"] = true →
          literalCount x.1 ≤ literalCount [PathSeg.literal "users", PathSeg.literal "me"] :=
  literal_route_precedence.1 String
    [([.literal "users", .param "id"], "param_route"),
      ([.literal "users", .literal "me"], "literal_route")]
    ["users", "me"] ([.literal "users", .literal "me"], "literal_route") (by decide)

/-- Claim C8: when operations from two or more operation groups are merged
and two operations share the same (path template, method) pair, document
assembly fails with the fatal build error `DuplicatePathMethod` and no
partial Document is produced. -/
theorem duplicate_path_method :
    (∀ (info : String) (servers : List String) (registry : Registry)
      (tags : List String) (groups : List (List Operation))
      (webhooks : List (String × Operation)),
      ¬ (groups.flatten.map opKey).Nodup →
      assembleDocument info servers registry tags groups webhooks =
          .error .duplicatePathMethod ∧
        ∀ doc, assembleDocument info servers registry tags groups webhooks ≠
          .ok doc) ∧
    assembleDocument "api" [] Registry.empty [] [[usersIdOp], [usersIdOp]] [] =
      .error .duplicatePathMethod := by
  constructor
  · intro info servers registry tags groups webhooks hdup
    have herr : ∀ doc,
        assembleDocument info servers registry tags groups webhooks ≠ .ok doc := by
      intro doc hok
      unfold assembleDocument at hok
      cases hm : mergeOperations [] groups.flatten with
      | ok table =>
        exact hdup (by simpa using mergeOperations_ok_nodup _ [] table (by simp) hm)
      | error e =>
        simp only [hm] at hok
        exact Except.noConfusion hok
    refine ⟨?_, herr⟩
    cases hm : mergeOperations [] groups.flatten with
    | ok table =>
      exact absurd (show assembleDocument info servers registry tags groups webhooks =
          .ok { info := info, servers := servers, paths := table, registry := registry,
                tags := tags, webhooks := webhooks } by
        simp [assembleDocument, hm]) (herr _)
    | error e =>
      have he : e = .duplicatePathMethod := mergeOperations_error_eq _ _ _ hm
      simp [assembleDocument, hm, he]
  · decide

/-- Witness for C8 on the concrete duplicate registration across two
operation groups. -/
theorem duplicate_path_method_witness :
    assembleDocument "api" [] Registry.empty [] [[usersIdOp], [usersIdOp]] [] =
        .error .duplicatePathMethod ∧
      ∀ doc,
        assembleDocument "api" [] Registry.empty [] [[usersIdOp], [usersIdOp]] [] ≠
          .ok doc :=
  duplicate_path_method.1 "api" [] Registry.empty [] [[usersIdOp], [usersIdOp]] []
    (by decide)

/-! ## Validation engine (spec section 4.7, modelling the missing
`validation.rs`) -/

/-- Modelled from the spec: `validation.rs` is missing. The per-field
constraint set of section 4.7: minimum, maximum, exclusive-minimum,
exclusive-maximum, minimum-length, maximum-length, pattern, minimum-items,
maximum-items, uniqueness, multiple-of. -/
inductive ConstraintRule where
  | minimum (bound : Int)
  | maximum (bound : Int)
  | exclusiveMinimum (bound : Int)
  | exclusiveMaximum (bound : Int)
  | minLength (n : Nat)
  | maxLength (n : Nat)
  | pattern (p : String)
  | minItems (n : Nat)
  | maxItems (n : Nat)
  | uniqueItems
  | multipleOf (divisor : Int)
deriving DecidableEq, Repr

/-- A fully deserialized typed value as the Validation Engine sees it
(section 4.7); list values carry primitive elements. -/
inductive FieldValue where
  | intVal (i : Int)
  | strVal (s : String)
  | intListVal (items : List Int)
  | strListVal (items : List String)
deriving DecidableEq, Repr

/-- Modelled from the spec: evaluation of one constraint against a typed
value (section 4.7). The regular-expression language itself is outside the
modelled core, so the pattern check is a parameter `matchPattern`; a
constraint that does not apply to the value's shape passes. -/
def checkConstraint (matchPattern : String → String → Bool) :
    ConstraintRule → FieldValue → Bool
  | .minimum b, .intVal i => decide (b ≤ i)
  | .maximum b, .intVal i => decide (i ≤ b)
  | .exclusiveMinimum b, .intVal i => decide (b < i)
  | .exclusiveMaximum b, .intVal i => decide (i < b)
  | .minLength n, .strVal s => decide (n ≤ s.length)
  | .maxLength n, .strVal s => decide (s.length ≤ n)
  | .pattern p, .strVal s => matchPattern p s
  | .minItems n, .intListVal l => decide (n ≤ l.length)
  | .minItems n, .strListVal l => decide (n ≤ l.length)
  | .maxItems n, .intListVal l => decide (l.length ≤ n)
  | .maxItems n, .strListVal l => decide (l.length ≤ n)
  | .uniqueItems, .intListVal l => decide l.Nodup
  | .uniqueItems, .strListVal l => decide l.Nodup
  | .multipleOf d, .intVal i => decide (i % d = 0)
  | _, _ => true

/-- One reported violation: the field path of the offending value and the
specific rule violated (section 4.7). -/
structure Violation where
  fieldPath : String
  rule : ConstraintRule
deriving DecidableEq, Repr

/-- All violated constraints of one value, in declared rule order, each
tagged with the field path — collected, not fail-fast (section 4.7). -/
def violationsFor (matchPattern : String → String → Bool) (fieldPath : String)
    (rules : List ConstraintRule) (v : FieldValue) : List Violation :=
  (rules.filter fun r => !(checkConstraint matchPattern r v)).map
    fun r => ⟨fieldPath, r⟩

/-- Modelled from the spec: the request-time extraction failure kinds,
"kind ∈ \x7bMissing, Malformed, ValidationFailed(detail)\x7d"
(section 4.3); the detail enumerates every failing constraint. -/
inductive ExtractionErrorKind where
  | missing
  | malformed
  | validationFailed (detail : List Violation)
deriving DecidableEq, Repr

/-- Modelled from the spec: `ExtractionError\x7blocation, name, kind\x7d`
(section 4.3). -/
structure ExtractionError where
  location : String
  name : String
  kind : ExtractionErrorKind
deriving DecidableEq, Repr

/-- Modelled from the spec: validation of one typed value against its
constraint set (section 4.7): "all violations for a single value are
collected and reported together (not fail-fast) ... producing one
structured `ValidationFailed` error enumerating every failing
constraint". -/
def validateValue (matchPattern : String → String → Bool)
    (location name fieldPath : String) (rules : List ConstraintRule)
    (v : FieldValue) : Except ExtractionError FieldValue :=
  match violationsFor matchPattern fieldPath rules v with
  | [] => .ok v
  | vs => .error ⟨location, name, .validationFailed vs⟩

/-! ## Extractor chain and dispatch (spec sections 4.3 and 4.6) -/

/-- Modelled from the spec: the matched operation's "extractor chain
executes in declared order, short-circuiting on the first extraction
failure" (section 4.6). -/
def runExtractorChain {ρ ν : Type _}
    (extractors : List (ρ → Except ExtractionError ν)) (req : ρ) :
    Except ExtractionError (List ν) :=
  match extractors with
  | [] => .ok []
  | e :: rest =>
    match e req with
    | .error err => .error err
    | .ok v =>
      match runExtractorChain rest req with
      | .error err => .error err
      | .ok vs => .ok (v :: vs)

/-- Modelled from the spec: "on full success the handler is invoked and its
result passed to the matching response encoder" (section 4.6); on failure
the handler is never invoked. -/
def dispatchRequest {ρ ν σ : Type _}
    (extractors : List (ρ → Except ExtractionError ν)) (handler : List ν → σ)
    (req : ρ) : Except ExtractionError σ :=
  match runExtractorChain extractors req with
  | .ok vs => .ok (handler vs)
  | .error err => .error err

/-! ## ApiResponse protocol (spec section 4.4, modelling the missing
`base.rs`) -/

/-- Modelled from the spec: one response variant of a tagged return type,
carrying the (status, content-type, schema, headers) it realizes
(section 4.4). -/
structure ResponseVariant where
  status : Nat
  contentType : String
  schema : PropSchema
  headers : List String
deriving DecidableEq, Repr

/-- Modelled from the spec: a tagged handler return type with its closed
set of response variants (section 4.4). -/
structure TaggedResponseType where
  variants : List ResponseVariant
deriving DecidableEq, Repr

/-- A runtime handler return value: which variant of the tagged return type
was produced, plus the rendered body. -/
structure HandlerResult (rt : TaggedResponseType) where
  tag : Fin rt.variants.length
  body : String

/-- Modelled from the spec: the ApiResponse protocol "converts a handler's
return value into exactly one realized (status, content-type, body,
headers) tuple at runtime, selected by which variant of a tagged return
type was produced" (section 4.4). -/
def realizeResponse (rt : TaggedResponseType) (v : HandlerResult rt) :
    Nat × String × String × List String :=
  let variant := rt.variants.get v.tag
  (variant.status, variant.contentType, v.body, variant.headers)

/-- Modelled from the spec: at build time the protocol "enumerates *all*
possible (status, schema) pairs the return type can produce"
(section 4.4). -/
def buildTimeResponses (rt : TaggedResponseType) : List (Nat × PropSchema) :=
  rt.variants.map fun variant => (variant.status, variant.schema)

/-! ## Claims C6, C9 and C10 -/

/-- Claim C6: for every typed value checked by the Validation Engine, all
constraint violations on that value are collected and reported together in
one structured `ValidationFailed` error that enumerates every failing
constraint, each tagged with the field path and the violated rule;
validation succeeds exactly when every constraint passes; in particular a
value violating both a minimum-length and a pattern constraint on the same
field yields a single error listing both violations. -/
theorem validation_collects_all :
    (∀ (matchPattern : String → String → Bool) (location name fieldPath : String)
      (rules : List ConstraintRule) (v : FieldValue),
      (validateValue matchPattern location name fieldPath rules v = .ok v ↔
        ∀ r ∈ rules, checkConstraint matchPattern r v = true) ∧
      (∀ err, validateValue matchPattern location name fieldPath rules v = .error err →
        err.location = location ∧ err.name = name ∧
        ∃ vs, err.kind = .validationFailed vs ∧ vs ≠ [] ∧
          ∀ r ∈ rules,
            (Violation.mk fieldPath r ∈ vs ↔
              checkConstraint matchPattern r v = false))) ∧
    validateValue (fun p s => decide (p = s)) "query" "v" "v"
        [.minLength 3, .pattern "[0-9]+"] (.strVal "ab") =
      .error ⟨"query", "v", .validationFailed
        [⟨"v", .minLength 3⟩, ⟨"v", .pattern "[0-9]+"⟩]⟩ := by
  constructor
  · intro mp loc nm fp rules v
    constructor
    · constructor
      · intro h r hr
        cases hv : violationsFor mp fp rules v with
        | nil =>
          have hf : (rules.filter fun r => !(checkConstraint mp r v)) = [] := by
            unfold violationsFor at hv
            exact List.map_eq_nil_iff.1 hv
          have := List.filter_eq_nil_iff.1 hf r hr
          simpa using this
        | cons a tl =>
          simp only [validateValue, hv] at h
          exact Except.noConfusion h
      · intro hall
        have hf : (rules.filter fun r => !(checkConstraint mp r v)) = [] := by
          apply List.filter_eq_nil_iff.2
          intro r hr
          simp [hall r hr]
        have hv : violationsFor mp fp rules v = [] := by
          unfold violationsFor
          rw [hf]
          rfl
        simp only [validateValue, hv]
    · intro err herr
      cases hv : violationsFor mp fp rules v with
      | nil =>
        simp only [validateValue, hv] at herr
        exact Except.noConfusion herr
      | cons a tl =>
        simp only [validateValue, hv] at herr
        cases herr
        refine ⟨rfl, rfl, a :: tl, rfl, by simp, ?_⟩
        intro r hr
        rw [← hv]
        unfold violationsFor
        constructor
        · intro hmem
          obtain ⟨r', hr', heq⟩ := List.mem_map.1 hmem
          cases heq
          have := (List.mem_filter.1 hr').2
          simpa using this
        · intro hfail
          exact List.mem_map.2 ⟨r, List.mem_filter.2 ⟨hr, by simp [hfail]⟩, rfl⟩
  · decide

/-- Witness for C6: the concrete string "ab" under a minimum-length 3 and a
pattern constraint, whose single error enumerates both violated rules. -/
theorem validation_collects_all_witness :
    (⟨"query", "v", .validationFailed
        [⟨"v", .minLength 3⟩, ⟨"v", .pattern "[0-9]+"⟩]⟩ :
      ExtractionError).location = "query" ∧
    (⟨"query", "v", .validationFailed
        [⟨"v", .minLength 3⟩, ⟨"v", .pattern "[0-9]+"⟩]⟩ :
      ExtractionError).name = "v" ∧
    ∃ vs, (⟨"query", "v", .validationFailed
        [⟨"v", .minLength 3⟩, ⟨"v", .pattern "[0-9]+"⟩]⟩ :
      ExtractionError).kind = .validationFailed vs ∧ vs ≠ [] ∧
      ∀ r ∈ [ConstraintRule.minLength 3, ConstraintRule.pattern "[0-9]+"],
        (Violation.mk "v" r ∈ vs ↔
          checkConstraint (fun p s => decide (p = s)) r (.strVal "ab") = false) :=
  (validation_collects_all.1 (fun p s => decide (p = s)) "query" "v" "v"
      [.minLength 3, .pattern "[0-9]+"] (.strVal "ab")).2
    ⟨"query", "v", .validationFailed
      [⟨"v", .minLength 3⟩, ⟨"v", .pattern "[0-9]+"⟩]⟩
    (by decide)

/-- Claim C9: for every matched route and request, the operation's
extractor chain executes in declared order and short-circuits on the first
extraction failure — the first failing extractor's error is the result,
whatever comes after it; the handler's value is produced exactly when every
extractor succeeds, and on any failure the dispatch result is the
extraction error for every possible handler, so the handler is never
invoked. -/
theorem extractor_chain_short_circuit :
    (∀ (ρ ν : Type) (pre : List (ρ → Except ExtractionError ν))
      (ex : ρ → Except ExtractionError ν)
      (post : List (ρ → Except ExtractionError ν)) (req : ρ)
      (err : ExtractionError),
      (∀ x ∈ pre, ∃ v, x req = .ok v) → ex req = .error err →
      runExtractorChain (pre ++ ex :: post) req = .error err) ∧
    (∀ (ρ ν σ : Type) (extractors : List (ρ → Except ExtractionError ν))
      (req : ρ) (err : ExtractionError),
      runExtractorChain extractors req = .error err →
      ∀ handler : List ν → σ, dispatchRequest extractors handler req = .error err) ∧
    (∀ (ρ ν σ : Type) (extractors : List (ρ → Except ExtractionError ν))
      (req : ρ) (vs : List ν),
      runExtractorChain extractors req = .ok vs →
      ∀ handler : List ν → σ,
        dispatchRequest extractors handler req = .ok (handler vs)) ∧
    (∀ (ρ ν : Type) (extractors : List (ρ → Except ExtractionError ν)) (req : ρ),
      (∃ vs, runExtractorChain extractors req = .ok vs) ↔
        ∀ x ∈ extractors, ∃ v, x req = .ok v) := by
  refine ⟨?_, ?_, ?_, ?_⟩
  · intro ρ ν pre ex post req err hpre hex
    induction pre with
    | nil =>
      simp only [List.nil_append, runExtractorChain, hex]
    | cons x pre' ih =>
      obtain ⟨v, hv⟩ := hpre x (List.mem_cons_self _ _)
      have hrest := ih (fun y hy => hpre y (List.mem_cons_of_mem _ hy))
      have hrest' : runExtractorChain (pre'.append (ex :: post)) req = .error err := hrest
      simp only [List.cons_append, runExtractorChain, hv, hrest, hrest']
  · intro ρ ν σ extractors req err h handler
    simp only [dispatchRequest, h]
  · intro ρ ν σ extractors req vs h handler
    simp only [dispatchRequest, h]
  · intro ρ ν extractors req
    induction extractors with
    | nil =>
      constructor
      · intro _ y hy
        cases hy
      · intro _
        exact ⟨[], rfl⟩
    | cons x rest ih =>
      constructor
      · rintro ⟨vs, hvs⟩
        simp only [runExtractorChain] at hvs
        cases hx : x req with
        | error e =>
          simp only [hx] at hvs
          exact Except.noConfusion hvs
        | ok v =>
          simp only [hx] at hvs
          cases hr : runExtractorChain rest req with
          | error e =>
            simp only [hr] at hvs
            exact Except.noConfusion hvs
          | ok vs' =>
            intro y hy
            rcases List.mem_cons.1 hy with rfl | hy'
            · exact ⟨v, hx⟩
            · exact (ih.1 ⟨vs', hr⟩) y hy'
      · intro hall
        obtain ⟨v, hv⟩ := hall x (List.mem_cons_self _ _)
        obtain ⟨vs', hvs'⟩ := ih.2 (fun y hy => hall y (List.mem_cons_of_mem _ hy))
        exact ⟨v :: vs', by simp only [runExtractorChain, hv, hvs']⟩

/-- Witness for C9: a concrete three-extractor chain whose middle extractor
fails with a Missing error, and a failing dispatch that returns the
extraction error for an arbitrary concrete handler. -/
theorem extractor_chain_short_circuit_witness :
    runExtractorChain
        (([fun _ => .ok 1] : List (Unit → Except ExtractionError Nat)) ++
          (fun _ => .error ⟨"query", "page", .missing⟩) :: [fun _ => .ok 3]) () =
      .error ⟨"query", "page", .missing⟩ ∧
    dispatchRequest
        ([fun _ => .error ⟨"query", "page", .missing⟩] :
          List (Unit → Except ExtractionError Nat))
        (fun vs => vs.length) () = .error ⟨"query", "page", .missing⟩ :=
  ⟨extractor_chain_short_circuit.1 Unit Nat [fun _ => .ok 1]
      (fun _ => .error ⟨"query", "page", .missing⟩) [fun _ => .ok 3] ()
      ⟨"query", "page", .missing⟩
      (fun x hx => by
        rw [List.mem_singleton] at hx
        exact hx ▸ ⟨1, rfl⟩)
      rfl,
    extractor_chain_short_circuit.2.1 Unit Nat Nat
      [fun _ => .error ⟨"query", "page", .missing⟩] ()
      ⟨"query", "page", .missing⟩ rfl (fun vs => vs.length)⟩

/-- Claim C10: the ApiResponse protocol realizes, for every handler return
value, exactly one (status, content-type, body, headers) tuple — the one of
the produced variant of the tagged return type — and the realized (status,
schema) pair is always among the pairs the protocol enumerates at build
time; conversely every enumerated pair is realized by some return value, so
the build-time enumeration is exhaustive over the runtime-realizable
variants. -/
theorem response_variants_exhaustive :
    (∀ (rt : TaggedResponseType) (v : HandlerResult rt),
      realizeResponse rt v =
        ((rt.variants.get v.tag).status, (rt.variants.get v.tag).contentType,
          v.body, (rt.variants.get v.tag).headers) ∧
      ((realizeResponse rt v).1, (rt.variants.get v.tag).schema) ∈
        buildTimeResponses rt) ∧
    (∀ (rt : TaggedResponseType) (p : Nat × PropSchema),
      p ∈ buildTimeResponses rt →
      ∃ v : HandlerResult rt, (realizeResponse rt v).1 = p.1 ∧
        (rt.variants.get v.tag).schema = p.2) := by
  constructor
  · intro rt v
    refine ⟨rfl, ?_⟩
    exact List.mem_map.2 ⟨rt.variants.get v.tag, List.get_mem _ _ _, rfl⟩
  · intro rt p hp
    obtain ⟨variant, hv, hpe⟩ := List.mem_map.1 hp
    obtain ⟨i, hi⟩ := List.mem_iff_get.1 hv
    refine ⟨⟨i, ""⟩, ?_, ?_⟩
    · show (rt.variants.get i).status = p.1
      rw [hi, ← hpe]
    · show (rt.variants.get i).schema = p.2
      rw [hi, ← hpe]

/-- A concrete tagged return type with a 200 and a 404 variant. -/
def sampleResponseType : TaggedResponseType :=
  ⟨[⟨200, "application/json", .prim "string", []⟩,
    ⟨404, "text/plain", .prim "string", []⟩]⟩

/-- Witness for C10: the enumerated 404 pair of the concrete tagged return
type is realized by some handler return value. -/
theorem response_variants_exhaustive_witness :
    ∃ v : HandlerResult sampleResponseType,
      (realizeResponse sampleResponseType v).1 = (404, PropSchema.prim "string").1 ∧
      (sampleResponseType.variants.get v.tag).schema =
        (404, PropSchema.prim "string").2 :=
  response_variants_exhaustive.2 sampleResponseType (404, .prim "string") (by decide)

end PoemOpenapi
